import Mathlib

/-!
Verification of the Anythink-Market repository's string-case utilities,
comment API routes, and (spec-modelled) favorite/slug operations.

Strings are modelled as `List Char`.  Character classes follow the ASCII
reading of the JavaScript regexes in the source: `[a-z]`, `[A-Z]`, `[0-9]`
are the ASCII ranges, `\s` is modelled by the ASCII whitespace characters
(space, tab, newline, carriage return, vertical tab, form feed), and
`toLowerCase` / `toUpperCase` are modelled on the ASCII letters.
-/

namespace StrUtil

/-- ASCII upper-case letter test, the `[A-Z]` class of the source regexes. -/
def isUp (c : Char) : Bool := 65 ≤ c.toNat && c.toNat ≤ 90

/-- ASCII lower-case letter test, the `[a-z]` class of the source regexes. -/
def isLo (c : Char) : Bool := 97 ≤ c.toNat && c.toNat ≤ 122

/-- ASCII digit test, the `[0-9]` class of the source regexes. -/
def isDig (c : Char) : Bool := 48 ≤ c.toNat && c.toNat ≤ 57

/-- ASCII alphanumeric test, the `[a-zA-Z0-9]` class of the source regexes. -/
def isAlnumA (c : Char) : Bool := isUp c || isLo c || isDig c

/-- ASCII whitespace, modelling the `\s` class of the source regexes. -/
def isWsA (c : Char) : Bool := c.toNat == 32 || (9 ≤ c.toNat && c.toNat ≤ 13)

/-- ASCII model of JavaScript `String.prototype.toLowerCase`, per character. -/
def lowerChar (c : Char) : Char :=
  if 65 ≤ c.toNat ∧ c.toNat ≤ 90 then Char.ofNat (c.toNat + 32) else c

/-- ASCII model of JavaScript `String.prototype.toUpperCase`, per character. -/
def upperChar (c : Char) : Char :=
  if 97 ≤ c.toNat ∧ c.toNat ≤ 122 then Char.ofNat (c.toNat - 32) else c

end StrUtil

namespace Kebab

open StrUtil

/-- The `[\s_]` class of step 3 of `toKebabCase`: whitespace or underscore. -/
def sepWU (c : Char) : Bool := isWsA c || c == '_'

/-- Step 1 of `toKebabCase` in `src/backend/routes/api/comments.js`:
`str.replace(/([a-z])([A-Z])/g, '$1-$2')`, inserting a hyphen between each
lower-case letter and the upper-case letter immediately following it. -/
def insertHyphens : List Char → List Char
  | [] => []
  | [c] => [c]
  | a :: b :: rest =>
    if isLo a && isUp b then a :: '-' :: insertHyphens (b :: rest)
    else a :: insertHyphens (b :: rest)

/-- Replace every maximal run of characters satisfying `p` by a single hyphen.
This models the global regex replacements of step 3 (pattern `[\s_]+`,
replacement `-`) and step 5 (pattern `-+`, replacement `-`).  The boolean argument records whether the
previous character was part of a run. -/
def collapseRuns (p : Char → Bool) : Bool → List Char → List Char
  | _, [] => []
  | prev, c :: cs =>
    if p c then
      if prev then collapseRuns p true cs
      else '-' :: collapseRuns p true cs
    else c :: collapseRuns p false cs

/-- A character is a hyphen. -/
def isHy (c : Char) : Bool := c == '-'

/-- No two adjacent characters of `l` both satisfy `p`. -/
def noAdjacent (p : Char → Bool) : List Char → Bool
  | [] => true
  | [_] => true
  | a :: b :: rest => !(p a && p b) && noAdjacent p (b :: rest)

/-- The first character of `l`, when it exists, does not satisfy `p`. -/
def headNot (p : Char → Bool) : List Char → Bool
  | [] => true
  | c :: _ => !p c

/-- The last character of `l`, when it exists, does not satisfy `p`. -/
def lastNot (p : Char → Bool) : List Char → Bool
  | [] => true
  | [c] => !p c
  | _ :: rest => lastNot p rest

/-- Step 4 of `toKebabCase`: `replace(/^-+|-+$/g, '')`, removing leading and
trailing runs of hyphens. -/
def stripHyphens (l : List Char) : List Char :=
  (((l.dropWhile isHy).reverse.dropWhile isHy).reverse)

/-- The `toKebabCase` function of `src/backend/routes/api/comments.js`:
insert hyphens at lower-to-upper transitions, lowercase, replace runs of
whitespace/underscores with a hyphen, strip leading/trailing hyphens, and
collapse runs of hyphens. -/
def toKebabCase (s : List Char) : List Char :=
  collapseRuns isHy false
    (stripHyphens
      (collapseRuns sepWU false
        (List.map lowerChar (insertHyphens s))))

/-- Modelled from the spec: the slug-generation wrapper of `createItem` is not
part of the source under `src/` (only `toKebabCase` is).  Per the spec's slug
normalization policy, "if empty after normalization, substitute a generated
random token"; the random token is passed in as a parameter. -/
def slugify (randomToken : List Char) (title : List Char) : List Char :=
  if toKebabCase title = [] then randomToken else toKebabCase title

/-- Modelled from the spec: `createItem` slug disambiguation is not part of the
source under `src/`.  Per the spec, `createItem` appends a short random
disambiguator when a collision with an existing slug is detected.  `taken` is
the set of slugs already in use and `suffix` the random disambiguator. -/
def createItemSlug (taken : List (List Char)) (randomToken suffix : List Char)
    (title : List Char) : List Char :=
  let base := slugify randomToken title
  if base ∈ taken then base ++ '-' :: suffix else base

end Kebab

namespace CommentsApi

/-- A stored Comment: its id and the id of its authoring user.  Only the
fields relevant to deletion and authorization are modelled. -/
structure Comment where
  id : Nat
  author : Nat
deriving DecidableEq

/-- The response an Express handler in `comments.js` can produce: a JSON list
of comments, a bare 204, or a status code with a JSON error message. -/
inductive RouteResponse where
  | json200 : List Comment → RouteResponse
  | status204 : RouteResponse
  | errJson : Nat → String → RouteResponse
deriving DecidableEq

/-- Whether a response is a Forbidden (403) error. -/
def RouteResponse.isForbidden : RouteResponse → Bool
  | .errJson 403 _ => true
  | _ => false

/-- The persistence operation `Comment.findByIdAndDelete(id)`: returns the
deleted comment (if any) together with the store after deletion. -/
def dbFindByIdAndDelete (store : List Comment) (id : Nat) :
    Option Comment × List Comment :=
  match store.find? (fun c => c.id == id) with
  | none => (none, store)
  | some c => (some c, store.filter (fun c2 => !(c2.id == id)))

/-- The handler body of `router.delete("/:id", ...)` in
`src/backend/routes/api/comments.js`, applied to the outcome of the
persistence call: `404` when no comment matched, `204` on success, and
`500` with the fixed message `"Failed to delete comment"` when the
persistence call rejected (the `.catch` branch). -/
def deleteCommentRoute : Except String (Option Comment × List Comment) → RouteResponse
  | .ok (none, _) => .errJson 404 "Comment not found"
  | .ok (some _, _) => .status204
  | .error _ => .errJson 500 "Failed to delete comment"

/-- The delete endpoint on a healthy store, as a state transformer.  The
`requestorId` parameter is the identity a caller would present; the route
in the source reads no requestor and performs no authorization check, so
the parameter is unused, exactly as in the code. -/
def deleteComment (store : List Comment) (requestorId commentId : Nat) :
    RouteResponse × List Comment :=
  (deleteCommentRoute (Except.ok (dbFindByIdAndDelete store commentId)),
   (dbFindByIdAndDelete store commentId).2)

/-- The handler body of `router.get("/", ...)` in
`src/backend/routes/api/comments.js`, applied to the outcome of
`Comment.find()`: the comment list on success, and `500` with the fixed
message `"Failed to fetch comments"` when the call threw (the `catch`
branch). -/
def getCommentsRoute : Except String (List Comment) → RouteResponse
  | .ok cs => .json200 cs
  | .error _ => .errJson 500 "Failed to fetch comments"

end CommentsApi

namespace Camel

open StrUtil

/-- The `[\s_-]` separator class of `toCamelCase` in `src/few_shot_prompt.js`. -/
def sepFS (c : Char) : Bool := isWsA c || c == '_' || c == '-'

/-- The `[\s_\-.]` separator class of `toCamelCase`/`toDotCase` in
`src/unnamed/part_001`. -/
def sepP1 (c : Char) : Bool := isWsA c || c == '_' || c == '-' || c == '.'

/-- The characters kept by the cleaning step of `src/unnamed/part_001`
(pattern `[^a-zA-Z0-9\s_\-.]`, replacement empty). -/
def allowedP1 (c : Char) : Bool := isAlnumA c || sepP1 c

/-- JavaScript `String.prototype.split` with a one-or-more separator-class
regex: tokens between maximal separator runs, including an empty token at
the start (resp. end) when the string starts (resp. ends) with a separator.
`inSep` records whether the previous character was a separator and `acc`
holds the current token reversed. -/
def splitA (p : Char → Bool) : Bool → List Char → List Char → List (List Char)
  | _, acc, [] => [acc.reverse]
  | inSep, acc, c :: cs =>
    if p c then
      if inSep then splitA p true acc cs
      else acc.reverse :: splitA p true [] cs
    else splitA p false (c :: acc) cs

/-- `word.toLowerCase()`. -/
def lowerWord (w : List Char) : List Char := w.map lowerChar

/-- `word.toLowerCase().charAt(0).toUpperCase() + word.toLowerCase().slice(1)`:
lowercase the word, then capitalize its first character. -/
def capLower (w : List Char) : List Char :=
  match w.map lowerChar with
  | [] => []
  | c :: cs => upperChar c :: cs

/-- The common camelCase joining step of both implementations: the first word
lowercased, every later word lowercased with its first letter capitalized,
all concatenated. -/
def camelJoin : List (List Char) → List Char
  | [] => []
  | w :: rest => lowerWord w ++ (rest.map capLower).flatten

/-- The `toCamelCase` of `src/few_shot_prompt.js`: split on runs of
space/underscore/hyphen (JS split semantics, with empty edge tokens), then
camel-join. -/
def fewShotToCamelCase (s : List Char) : List Char :=
  camelJoin (splitA sepFS false [] s)

/-- The `toCamelCase` of `src/unnamed/part_001`: return empty when the string
is all separators (the `!str.trim() || !str.replace(...)` early return),
else remove disallowed characters, strip leading/trailing separators, split
on separator runs, drop empty words, and camel-join (returning empty when no
words remain). -/
def part1ToCamelCase (s : List Char) : List Char :=
  if s.all sepP1 then []
  else
    let cleaned := s.filter allowedP1
    let stripped := ((cleaned.dropWhile sepP1).reverse.dropWhile sepP1).reverse
    let ws := (splitA sepP1 false [] stripped).filter (fun w => !w.isEmpty)
    if ws.isEmpty then [] else camelJoin ws

/-- The `toDotCase` of `src/unnamed/part_001`: same early return, cleaning,
stripping and splitting as its `toCamelCase`, then all words lowercased and
joined with dots. -/
def part1ToDotCase (s : List Char) : List Char :=
  if s.all sepP1 then []
  else
    let cleaned := s.filter allowedP1
    let stripped := ((cleaned.dropWhile sepP1).reverse.dropWhile sepP1).reverse
    let ws := (splitA sepP1 false [] stripped).filter (fun w => !w.isEmpty)
    if ws.isEmpty then [] else List.intercalate ['.'] (ws.map lowerWord)

end Camel

namespace Market

/-- Modelled from the spec: a User of the Identity Graph, reduced to the
fields the favorite operations touch (spec section 3): a stable id and the
`favorites` set of Item ids.  The favorite/unfavorite operations themselves
are not part of the source under `src/`. -/
structure User where
  id : Nat
  favorites : List Nat
deriving DecidableEq

/-- Modelled from the spec: an Item of the Catalog Graph, reduced to its id
and the derived `favoritesCount` field (spec section 3). -/
structure Item where
  id : Nat
  favoritesCount : Nat
deriving DecidableEq

/-- Modelled from the spec: the persistent state shared by the favorite
operations — the Users and the Items. -/
structure St where
  users : List User
  items : List Item
deriving DecidableEq

/-- The number of distinct Users whose `favorites` set contains Item `iid`.
Distinctness is by list position; under the no-duplicate-ids invariant this
is the count of distinct users. -/
def countFavoriters (st : St) (iid : Nat) : Nat :=
  (st.users.filter (fun u => u.favorites.contains iid)).length

/-- Modelled from the spec: `favorite(userId, slug)` of the Catalog Graph
(spec section 4.4), keyed here by item id.  Idempotent: if the user already
favorites the item it is a no-op; otherwise the item id is added to the
user's `favorites` set and the item's `favoritesCount` is incremented, as
one atomic unit.  A missing user is a no-op (the route would reject it
before reaching this operation). -/
def favorite (st : St) (uid iid : Nat) : St :=
  if st.users.any (fun u => u.id == uid && u.favorites.contains iid) then st
  else if st.users.any (fun u => u.id == uid) then
    { users := st.users.map (fun u =>
        if u.id == uid then { u with favorites := iid :: u.favorites } else u),
      items := st.items.map (fun it =>
        if it.id == iid then { it with favoritesCount := it.favoritesCount + 1 } else it) }
  else st

/-- Modelled from the spec: `unfavorite(userId, slug)` of the Catalog Graph
(spec section 4.4): the reverse of `favorite`, idempotent; removes the item
id from the user's `favorites` set and decrements the item's
`favoritesCount` as one atomic unit. -/
def unfavorite (st : St) (uid iid : Nat) : St :=
  if st.users.any (fun u => u.id == uid && u.favorites.contains iid) then
    { users := st.users.map (fun u =>
        if u.id == uid then { u with favorites := u.favorites.erase iid } else u),
      items := st.items.map (fun it =>
        if it.id == iid then { it with favoritesCount := it.favoritesCount - 1 } else it) }
  else st

/-- A favorite or unfavorite request. -/
inductive FavOp where
  | fav : Nat → Nat → FavOp
  | unfav : Nat → Nat → FavOp
deriving DecidableEq

/-- Apply one favorite/unfavorite request. -/
def applyOp (st : St) : FavOp → St
  | .fav u i => favorite st u i
  | .unfav u i => unfavorite st u i

/-- Run a sequence of favorite/unfavorite requests. -/
def runOps (st : St) : List FavOp → St
  | [] => st
  | op :: ops => runOps (applyOp st op) ops

/-- The data-model invariant of spec section 3 for the favorite relation:
user ids are unique, `favorites` sets hold no duplicates, and every Item's
`favoritesCount` equals the number of distinct Users favoriting it. -/
def inv (st : St) : Prop :=
  (st.users.map User.id).Nodup ∧
  (∀ u ∈ st.users, u.favorites.Nodup) ∧
  (∀ it ∈ st.items, it.favoritesCount = countFavoriters st it.id)

instance (st : St) : Decidable (inv st) := by
  unfold inv
  exact inferInstance

end Market

namespace Camel

/-- The words of a string for separator class `p`: the maximal runs of
non-separator characters, in order, with no empty tokens.  This is the
common normal form both `toCamelCase` implementations reduce to. -/
def wordsA (p : Char → Bool) : List Char → List Char → List (List Char)
  | acc, [] => if acc.isEmpty then [] else [acc.reverse]
  | acc, c :: cs =>
    if p c then
      if acc.isEmpty then wordsA p [] cs
      else acc.reverse :: wordsA p [] cs
    else wordsA p (c :: acc) cs

/-- The word list both `part1ToCamelCase` and `part1ToDotCase` operate on:
clean, strip, and split into nonempty words.  Used as the common normal form
in proofs. -/
def part1Words (s : List Char) : List (List Char) :=
  wordsA sepP1 []
    ((((s.filter allowedP1).dropWhile sepP1).reverse.dropWhile sepP1).reverse)

/-- The alphabet on which the two `toCamelCase` implementations are compared:
ASCII alphanumerics, space, underscore and hyphen (no dots, no characters
the part_001 cleaning step would remove, no non-space whitespace). -/
def narrowFS (c : Char) : Bool :=
  StrUtil.isAlnumA c || c == ' ' || c == '_' || c == '-'

end Camel

namespace StrUtil

theorem toNat_ofNat_valid (n : Nat) (h : n < 55296) : (Char.ofNat n).toNat = n := by
  unfold Char.ofNat
  rw [dif_pos (Or.inl h)]
  rfl

theorem lowerChar_toNat (c : Char) :
    (lowerChar c).toNat = if 65 ≤ c.toNat ∧ c.toNat ≤ 90 then c.toNat + 32 else c.toNat := by
  unfold lowerChar
  by_cases h : 65 ≤ c.toNat ∧ c.toNat ≤ 90
  · rw [if_pos h, if_pos h, toNat_ofNat_valid]
    omega
  · rw [if_neg h, if_neg h]

theorem isUp_lowerChar (c : Char) : isUp (lowerChar c) = false := by
  have h := lowerChar_toNat c
  unfold isUp
  simp only [Bool.and_eq_false_iff, decide_eq_false_iff_not, not_le]
  by_cases hc : 65 ≤ c.toNat ∧ c.toNat ≤ 90
  · rw [if_pos hc] at h
    omega
  · rw [if_neg hc] at h
    omega

theorem lowerChar_eq_self_of_not_up (c : Char) (h : isUp c = false) : lowerChar c = c := by
  unfold lowerChar
  rw [if_neg]
  intro hc
  unfold isUp at h
  simp only [Bool.and_eq_false_iff, decide_eq_false_iff_not, not_le] at h
  omega

theorem lowerChar_lowerChar (c : Char) : lowerChar (lowerChar c) = lowerChar c :=
  lowerChar_eq_self_of_not_up _ (isUp_lowerChar c)

theorem isAlnumA_lowerChar (c : Char) : isAlnumA (lowerChar c) = isAlnumA c := by
  have h := lowerChar_toNat c
  unfold isAlnumA isUp isLo isDig
  by_cases hc : 65 ≤ c.toNat ∧ c.toNat ≤ 90
  · rw [if_pos hc] at h
    rw [h]
    have h1 : (decide (65 ≤ c.toNat + 32) && decide (c.toNat + 32 ≤ 90)) = false := by
      simp only [Bool.and_eq_false_iff, decide_eq_false_iff_not, not_le]
      omega
    have h2 : (decide (97 ≤ c.toNat + 32) && decide (c.toNat + 32 ≤ 122)) = true := by
      simp only [Bool.and_eq_true, decide_eq_true_eq]
      omega
    have h3 : (decide (65 ≤ c.toNat) && decide (c.toNat ≤ 90)) = true := by
      simp only [Bool.and_eq_true, decide_eq_true_eq]
      omega
    rw [h1, h2, h3]
    simp
  · rw [if_neg hc] at h
    rw [h]

end StrUtil

namespace Kebab

open StrUtil

theorem mem_collapseRuns {p : Char → Bool} {c : Char} :
    ∀ {l : List Char} {b : Bool}, c ∈ collapseRuns p b l →
      c = '-' ∨ (c ∈ l ∧ p c = false) := by
  intro l
  induction l with
  | nil => intro b h; simp [collapseRuns] at h
  | cons a t ih =>
    intro b h
    cases hpa : p a with
    | true =>
      cases b with
      | true =>
        simp only [collapseRuns, hpa, if_true] at h
        rcases ih h with h1 | ⟨h2, h3⟩
        · exact Or.inl h1
        · exact Or.inr ⟨List.mem_cons_of_mem _ h2, h3⟩
      | false =>
        simp only [collapseRuns, hpa, if_true] at h
        rcases List.mem_cons.mp h with h1 | h1
        · exact Or.inl h1
        · rcases ih h1 with h2 | ⟨h3, h4⟩
          · exact Or.inl h2
          · exact Or.inr ⟨List.mem_cons_of_mem _ h3, h4⟩
    | false =>
      simp only [collapseRuns, hpa, Bool.false_eq_true, if_false] at h
      rcases List.mem_cons.mp h with h1 | h1
      · subst h1; exact Or.inr ⟨List.mem_cons_self _ _, hpa⟩
      · rcases ih h1 with h2 | ⟨h3, h4⟩
        · exact Or.inl h2
        · exact Or.inr ⟨List.mem_cons_of_mem _ h3, h4⟩

theorem collapseRuns_eq_self {p : Char → Bool} :
    ∀ {l : List Char}, (∀ c ∈ l, p c = false) → ∀ b, collapseRuns p b l = l := by
  intro l
  induction l with
  | nil => intro _ b; simp [collapseRuns]
  | cons a t ih =>
    intro h b
    have ha : p a = false := h a (List.mem_cons_self _ _)
    simp only [collapseRuns, ha, Bool.false_eq_true, if_false]
    rw [ih (fun c hc => h c (List.mem_cons_of_mem _ hc)) false]

theorem noAdjacent_cons {p : Char → Bool} {a : Char} {t : List Char}
    (h1 : p a = false ∨ headNot p t = true) (h2 : noAdjacent p t = true) :
    noAdjacent p (a :: t) = true := by
  cases t with
  | nil => simp [noAdjacent]
  | cons b t2 =>
    simp only [noAdjacent, Bool.and_eq_true, Bool.not_eq_true']
    refine ⟨?_, h2⟩
    rcases h1 with h1 | h1
    · simp [h1]
    · simp only [headNot, Bool.not_eq_true'] at h1
      simp [h1]

theorem noAdjacent_tail {p : Char → Bool} {a : Char} {t : List Char}
    (h : noAdjacent p (a :: t) = true) : noAdjacent p t = true := by
  cases t with
  | nil => simp [noAdjacent]
  | cons b t2 =>
    simp only [noAdjacent, Bool.and_eq_true] at h
    exact h.2

theorem noAdjacent_pair {p : Char → Bool} {a b : Char} {t : List Char}
    (h : noAdjacent p (a :: b :: t) = true) (ha : p a = true) : p b = false := by
  simp only [noAdjacent, Bool.and_eq_true, Bool.not_eq_true'] at h
  rcases h with ⟨h1, _⟩
  simp [ha] at h1
  exact h1

theorem collapseRuns_cons_pos_true {p : Char → Bool} {a : Char} {t : List Char}
    (h : p a = true) : collapseRuns p true (a :: t) = collapseRuns p true t := by
  simp [collapseRuns, h]

theorem collapseRuns_cons_pos_false {p : Char → Bool} {a : Char} {t : List Char}
    (h : p a = true) : collapseRuns p false (a :: t) = '-' :: collapseRuns p true t := by
  simp [collapseRuns, h]

theorem collapseRuns_cons_neg {p : Char → Bool} {a : Char} {t : List Char}
    (h : p a = false) (b : Bool) :
    collapseRuns p b (a :: t) = a :: collapseRuns p false t := by
  cases b <;> simp [collapseRuns, h]

theorem collapseRuns_isHy_noAdjacent :
    ∀ (l : List Char) (b : Bool),
      noAdjacent isHy (collapseRuns isHy b l) = true ∧
      (b = true → headNot isHy (collapseRuns isHy b l) = true) := by
  intro l
  induction l with
  | nil => intro b; simp [collapseRuns, noAdjacent, headNot]
  | cons a t ih =>
    intro b
    cases hpa : isHy a with
    | true =>
      cases b with
      | true =>
        rw [collapseRuns_cons_pos_true hpa]
        exact ⟨(ih true).1, fun _ => (ih true).2 rfl⟩
      | false =>
        rw [collapseRuns_cons_pos_false hpa]
        refine ⟨?_, ?_⟩
        · apply noAdjacent_cons
          · exact Or.inr ((ih true).2 rfl)
          · exact (ih true).1
        · intro h; cases h
    | false =>
      rw [collapseRuns_cons_neg hpa]
      refine ⟨?_, ?_⟩
      · apply noAdjacent_cons
        · exact Or.inl hpa
        · exact (ih false).1
      · intro _
        simp [headNot, hpa]

theorem headNot_collapseRuns {l : List Char}
    (h : headNot isHy l = true) : headNot isHy (collapseRuns isHy false l) = true := by
  cases l with
  | nil => simp [collapseRuns, headNot]
  | cons a t =>
    simp only [headNot, Bool.not_eq_true'] at h
    rw [collapseRuns_cons_neg h]
    simp [headNot, h]

theorem lastNot_cons {p : Char → Bool} {a : Char} {t : List Char} (h : t ≠ []) :
    lastNot p (a :: t) = lastNot p t := by
  cases t with
  | nil => exact absurd rfl h
  | cons b t2 => rfl

theorem collapseRuns_lastNot {p : Char → Bool} :
    ∀ {l : List Char}, l ≠ [] → lastNot p l = true →
      ∀ b, collapseRuns p b l ≠ [] ∧ lastNot p (collapseRuns p b l) = true := by
  intro l
  induction l with
  | nil => intro h; exact absurd rfl h
  | cons a t ih =>
    intro _ hlast b
    cases t with
    | nil =>
      have ha : p a = false := by
        simpa [lastNot, Bool.not_eq_true'] using hlast
      rw [collapseRuns_cons_neg ha]
      simp [collapseRuns, lastNot, ha]
    | cons c t2 =>
      have hlt : lastNot p (c :: t2) = true := by
        rw [lastNot_cons (by simp)] at hlast; exact hlast
      have iht := ih (by simp) hlt
      cases hpa : p a with
      | true =>
        cases b with
        | true =>
          rw [collapseRuns_cons_pos_true hpa]
          exact iht true
        | false =>
          rw [collapseRuns_cons_pos_false hpa]
          refine ⟨by simp, ?_⟩
          rw [lastNot_cons (iht true).1]
          exact (iht true).2
      | false =>
        rw [collapseRuns_cons_neg hpa]
        refine ⟨by simp, ?_⟩
        rw [lastNot_cons (iht false).1]
        exact (iht false).2

theorem collapseRuns_isHy_eq_self :
    ∀ {l : List Char} {b : Bool}, noAdjacent isHy l = true →
      (b = true → headNot isHy l = true) → collapseRuns isHy b l = l := by
  intro l
  induction l with
  | nil => intro b _ _; simp [collapseRuns]
  | cons a t ih =>
    intro b hadj hhead
    cases hpa : isHy a with
    | true =>
      cases b with
      | true =>
        have := hhead rfl
        simp [headNot, hpa] at this
      | false =>
        have ha : a = '-' := by
          have : (a == '-') = true := hpa
          exact eq_of_beq this
        rw [collapseRuns_cons_pos_false hpa]
        rw [ih (noAdjacent_tail hadj) ?_]
        · rw [ha]
        · intro _
          cases t with
          | nil => simp [headNot]
          | cons c t2 =>
            have := noAdjacent_pair hadj hpa
            simp [headNot, this]
    | false =>
      rw [collapseRuns_cons_neg hpa]
      rw [ih (noAdjacent_tail hadj) (by intro h; cases h)]

end Kebab

namespace Kebab

open StrUtil

theorem headNot_append_left {p : Char → Bool} {l r : List Char} (h : l ≠ []) :
    headNot p (l ++ r) = headNot p l := by
  cases l with
  | nil => exact absurd rfl h
  | cons a t => rfl

theorem headNot_reverse {p : Char → Bool} :
    ∀ (l : List Char), headNot p l.reverse = lastNot p l := by
  intro l
  induction l with
  | nil => rfl
  | cons a t ih =>
    cases t with
    | nil => rfl
    | cons b t2 =>
      have hne : (b :: t2).reverse ≠ [] := by simp
      calc headNot p ((a :: b :: t2).reverse)
          = headNot p ((b :: t2).reverse ++ [a]) := by rw [List.reverse_cons]
        _ = headNot p ((b :: t2).reverse) := headNot_append_left hne
        _ = lastNot p (b :: t2) := ih
        _ = lastNot p (a :: b :: t2) := (lastNot_cons (by simp)).symm

theorem lastNot_reverse {p : Char → Bool} (l : List Char) :
    lastNot p l.reverse = headNot p l := by
  have := headNot_reverse (p := p) l.reverse
  rw [List.reverse_reverse] at this
  exact this.symm

theorem headNot_dropWhile {p : Char → Bool} :
    ∀ (l : List Char), headNot p (l.dropWhile p) = true := by
  intro l
  induction l with
  | nil => rfl
  | cons a t ih =>
    rw [List.dropWhile_cons]
    cases hpa : p a with
    | true => simpa [hpa] using ih
    | false => simp [hpa, headNot]

theorem dropWhile_eq_self_of_headNot {p : Char → Bool} {l : List Char}
    (h : headNot p l = true) : l.dropWhile p = l := by
  cases l with
  | nil => rfl
  | cons a t =>
    simp only [headNot, Bool.not_eq_true'] at h
    simp [List.dropWhile_cons, h]

theorem lastNot_dropWhile {p : Char → Bool} :
    ∀ {l : List Char}, lastNot p l = true → lastNot p (l.dropWhile p) = true := by
  intro l
  induction l with
  | nil => intro _; rfl
  | cons a t ih =>
    intro h
    rw [List.dropWhile_cons]
    cases hpa : p a with
    | true =>
      simp only [hpa, if_true]
      cases t with
      | nil => simp [lastNot, hpa] at h
      | cons b t2 =>
        rw [lastNot_cons (by simp)] at h
        exact ih h
    | false =>
      simp only [hpa, Bool.false_eq_true, if_false]
      exact h

theorem headNot_stripHyphens (l : List Char) :
    headNot isHy (stripHyphens l) = true := by
  unfold stripHyphens
  rw [headNot_reverse]
  apply lastNot_dropWhile
  rw [lastNot_reverse]
  exact headNot_dropWhile l

theorem lastNot_stripHyphens (l : List Char) :
    lastNot isHy (stripHyphens l) = true := by
  unfold stripHyphens
  rw [lastNot_reverse]
  exact headNot_dropWhile _

theorem stripHyphens_eq_self {l : List Char}
    (h1 : headNot isHy l = true) (h2 : lastNot isHy l = true) :
    stripHyphens l = l := by
  unfold stripHyphens
  rw [dropWhile_eq_self_of_headNot h1]
  rw [dropWhile_eq_self_of_headNot (by rw [headNot_reverse]; exact h2)]
  exact List.reverse_reverse l

theorem mem_stripHyphens {c : Char} {l : List Char}
    (h : c ∈ stripHyphens l) : c ∈ l := by
  unfold stripHyphens at h
  rw [List.mem_reverse] at h
  have h2 := (List.dropWhile_sublist isHy).mem h
  rw [List.mem_reverse] at h2
  exact (List.dropWhile_sublist isHy).mem h2

theorem insertHyphens_eq_self :
    ∀ {l : List Char}, (∀ c ∈ l, isUp c = false) → insertHyphens l = l := by
  intro l
  induction l with
  | nil => intro _; rfl
  | cons a t ih =>
    intro h
    cases t with
    | nil => rfl
    | cons b t2 =>
      have hb : isUp b = false := h b (List.mem_cons_of_mem _ (List.mem_cons_self _ _))
      have hcond : (isLo a && isUp b) = false := by simp [hb]
      simp only [insertHyphens, hcond, Bool.false_eq_true, if_false]
      rw [ih (fun c hc => h c (List.mem_cons_of_mem _ hc))]

theorem map_lowerChar_eq_self {l : List Char}
    (h : ∀ c ∈ l, isUp c = false) : l.map lowerChar = l := by
  have : l.map lowerChar = l.map id :=
    List.map_congr_left (fun c hc => lowerChar_eq_self_of_not_up c (h c hc))
  rw [this, List.map_id]

theorem toKebabCase_not_up {s : List Char} :
    ∀ c ∈ toKebabCase s, isUp c = false := by
  intro c hc
  unfold toKebabCase at hc
  rcases mem_collapseRuns hc with h1 | ⟨h1, _⟩
  · subst h1; decide
  · have h2 := mem_stripHyphens h1
    rcases mem_collapseRuns h2 with h3 | ⟨h3, _⟩
    · subst h3; decide
    · rcases List.mem_map.mp h3 with ⟨d, _, hd⟩
      subst hd
      exact isUp_lowerChar d

theorem toKebabCase_not_sep {s : List Char} :
    ∀ c ∈ toKebabCase s, sepWU c = false := by
  intro c hc
  unfold toKebabCase at hc
  rcases mem_collapseRuns hc with h1 | ⟨h1, _⟩
  · subst h1; decide
  · have h2 := mem_stripHyphens h1
    rcases mem_collapseRuns h2 with h3 | ⟨_, h4⟩
    · subst h3; decide
    · exact h4

theorem toKebabCase_headNot (s : List Char) :
    headNot isHy (toKebabCase s) = true := by
  unfold toKebabCase
  exact headNot_collapseRuns (headNot_stripHyphens _)

theorem toKebabCase_lastNot (s : List Char) :
    lastNot isHy (toKebabCase s) = true := by
  unfold toKebabCase
  cases hz : stripHyphens (collapseRuns sepWU false (List.map lowerChar (insertHyphens s))) with
  | nil => simp [collapseRuns, lastNot]
  | cons a t =>
    have hl : lastNot isHy (a :: t) = true := by
      rw [← hz]; exact lastNot_stripHyphens _
    exact (collapseRuns_lastNot (by simp) hl false).2

theorem toKebabCase_noAdjacent (s : List Char) :
    noAdjacent isHy (toKebabCase s) = true := by
  unfold toKebabCase
  exact (collapseRuns_isHy_noAdjacent _ false).1

theorem toKebabCase_idem (s : List Char) :
    toKebabCase (toKebabCase s) = toKebabCase s := by
  have h1 : insertHyphens (toKebabCase s) = toKebabCase s :=
    insertHyphens_eq_self toKebabCase_not_up
  have h2 : (toKebabCase s).map lowerChar = toKebabCase s :=
    map_lowerChar_eq_self toKebabCase_not_up
  have h3 : collapseRuns sepWU false (toKebabCase s) = toKebabCase s :=
    collapseRuns_eq_self toKebabCase_not_sep false
  have h4 : stripHyphens (toKebabCase s) = toKebabCase s :=
    stripHyphens_eq_self (toKebabCase_headNot s) (toKebabCase_lastNot s)
  have h5 : collapseRuns isHy false (toKebabCase s) = toKebabCase s :=
    collapseRuns_isHy_eq_self (toKebabCase_noAdjacent s) (by intro h; cases h)
  conv_lhs => rw [toKebabCase]
  rw [h1, h2, h3, h4, h5]

end Kebab

namespace Camel

open StrUtil

theorem splitA_cons_pos_true {p : Char → Bool} {c : Char} {acc cs : List Char}
    (h : p c = true) : splitA p true acc (c :: cs) = splitA p true acc cs := by
  simp [splitA, h]

theorem splitA_cons_pos_false {p : Char → Bool} {c : Char} {acc cs : List Char}
    (h : p c = true) :
    splitA p false acc (c :: cs) = acc.reverse :: splitA p true [] cs := by
  simp [splitA, h]

theorem splitA_cons_neg {p : Char → Bool} {c : Char} {acc cs : List Char}
    (h : p c = false) (b : Bool) :
    splitA p b acc (c :: cs) = splitA p false (c :: acc) cs := by
  cases b <;> simp [splitA, h]

theorem wordsA_nil {p : Char → Bool} {acc : List Char} :
    wordsA p acc [] = if acc.isEmpty then [] else [acc.reverse] := by
  simp [wordsA]

theorem wordsA_cons_pos {p : Char → Bool} {c : Char} {acc cs : List Char}
    (h : p c = true) :
    wordsA p acc (c :: cs) =
      if acc.isEmpty then wordsA p [] cs else acc.reverse :: wordsA p [] cs := by
  simp [wordsA, h]

theorem wordsA_cons_neg {p : Char → Bool} {c : Char} {acc cs : List Char}
    (h : p c = false) : wordsA p acc (c :: cs) = wordsA p (c :: acc) cs := by
  simp [wordsA, h]

theorem isEmpty_concat (l : List Char) (a : Char) : (l ++ [a]).isEmpty = false := by
  cases l <;> rfl

theorem isEmpty_reverse_cons (a : Char) (t : List Char) :
    ((a :: t).reverse).isEmpty = false := by
  rw [List.reverse_cons]
  exact isEmpty_concat _ _

theorem splitA_filter {p : Char → Bool} :
    ∀ (l : List Char),
      (∀ acc, (splitA p false acc l).filter (fun w => !w.isEmpty) = wordsA p acc l) ∧
      ((splitA p true [] l).filter (fun w => !w.isEmpty) = wordsA p [] l) := by
  intro l
  induction l with
  | nil =>
    constructor
    · intro acc
      show ([acc.reverse].filter (fun w => !w.isEmpty)) = _
      rw [wordsA_nil]
      cases acc with
      | nil => simp [List.filter]
      | cons a t => simp [List.filter, isEmpty_concat]
    · show ([List.reverse []].filter (fun w => !w.isEmpty)) = _
      simp [List.filter, wordsA_nil]
  | cons c cs ih =>
    constructor
    · intro acc
      cases hpc : p c with
      | true =>
        rw [splitA_cons_pos_false hpc, wordsA_cons_pos hpc]
        cases acc with
        | nil => simpa [List.filter] using ih.2
        | cons a t =>
          rw [List.filter_cons]
          rw [isEmpty_reverse_cons]
          simp only [Bool.not_false, if_true]
          rw [ih.2]
          simp
      | false =>
        rw [splitA_cons_neg hpc false, wordsA_cons_neg hpc]
        exact ih.1 _
    · cases hpc : p c with
      | true =>
        rw [splitA_cons_pos_true hpc, wordsA_cons_pos hpc]
        simpa using ih.2
      | false =>
        rw [splitA_cons_neg hpc true, wordsA_cons_neg hpc]
        exact ih.1 _

theorem splitA_words_or {p : Char → Bool} :
    ∀ (l : List Char),
      (∀ acc, acc ≠ [] →
        splitA p false acc l = wordsA p acc l ∨
        splitA p false acc l = wordsA p acc l ++ [[]]) ∧
      (splitA p true [] l = wordsA p [] l ∨
        splitA p true [] l = wordsA p [] l ++ [[]]) ∧
      (Kebab.headNot p l = true →
        splitA p false [] l = wordsA p [] l ∨
        splitA p false [] l = wordsA p [] l ++ [[]]) := by
  intro l
  induction l with
  | nil =>
    refine ⟨?_, ?_, ?_⟩
    · intro acc hacc
      left
      show [acc.reverse] = _
      rw [wordsA_nil]
      cases acc with
      | nil => exact absurd rfl hacc
      | cons a t => simp
    · right
      show [List.reverse []] = _
      rw [wordsA_nil]
      simp
    · intro _
      right
      show [List.reverse []] = _
      rw [wordsA_nil]
      simp
  | cons c cs ih =>
    have main : ∀ acc, acc ≠ [] →
        splitA p false acc (c :: cs) = wordsA p acc (c :: cs) ∨
        splitA p false acc (c :: cs) = wordsA p acc (c :: cs) ++ [[]] := by
      intro acc hacc
      cases hpc : p c with
      | true =>
        rw [splitA_cons_pos_false hpc, wordsA_cons_pos hpc]
        rw [if_neg (by cases acc with | nil => exact absurd rfl hacc | cons a t => simp)]
        rcases ih.2.1 with h | h
        · left; rw [h]
        · right; rw [h]; rfl
      | false =>
        rw [splitA_cons_neg hpc false, wordsA_cons_neg hpc]
        exact ih.1 _ (by simp)
    have inSep : splitA p true [] (c :: cs) = wordsA p [] (c :: cs) ∨
        splitA p true [] (c :: cs) = wordsA p [] (c :: cs) ++ [[]] := by
      cases hpc : p c with
      | true =>
        rw [splitA_cons_pos_true hpc, wordsA_cons_pos hpc]
        rw [if_pos (by simp)]
        exact ih.2.1
      | false =>
        rw [splitA_cons_neg hpc true, wordsA_cons_neg hpc]
        exact ih.1 _ (by simp)
    refine ⟨main, inSep, ?_⟩
    intro hhead
    have hpc : p c = false := by
      simpa [Kebab.headNot, Bool.not_eq_true'] using hhead
    rw [splitA_cons_neg hpc false, wordsA_cons_neg hpc]
    exact ih.1 _ (by simp)

theorem capLower_nil : capLower [] = [] := rfl

theorem camelJoin_append_nil (ws : List (List Char)) :
    camelJoin (ws ++ [[]]) = camelJoin ws := by
  cases ws with
  | nil => simp [camelJoin, lowerWord]
  | cons w rest =>
    show camelJoin (w :: (rest ++ [[]])) = _
    simp only [camelJoin, List.map_append, List.flatten_append]
    simp [capLower_nil]

theorem fewShot_eq_camelJoin_wordsA {s : List Char}
    (h : Kebab.headNot sepFS s = true) :
    fewShotToCamelCase s = camelJoin (wordsA sepFS [] s) := by
  unfold fewShotToCamelCase
  rcases (splitA_words_or s).2.2 h with h1 | h1
  · rw [h1]
  · rw [h1, camelJoin_append_nil]

end Camel

namespace Camel

open StrUtil

theorem wordsA_dropWhile {p : Char → Bool} :
    ∀ (l : List Char), wordsA p [] (l.dropWhile p) = wordsA p [] l := by
  intro l
  induction l with
  | nil => rfl
  | cons c cs ih =>
    rw [List.dropWhile_cons]
    cases hpc : p c with
    | true =>
      rw [if_pos rfl, wordsA_cons_pos hpc]
      simpa using ih
    | false =>
      rw [if_neg (by simp)]

theorem wordsA_all_sep {p : Char → Bool} :
    ∀ {t : List Char}, (∀ c ∈ t, p c = true) → ∀ acc,
      wordsA p acc t = if acc.isEmpty then [] else [acc.reverse] := by
  intro t
  induction t with
  | nil => intro _ acc; exact wordsA_nil
  | cons c cs ih =>
    intro h acc
    have hpc : p c = true := h c (List.mem_cons_self _ _)
    rw [wordsA_cons_pos hpc]
    have ihe := ih (fun d hd => h d (List.mem_cons_of_mem _ hd)) ([] : List Char)
    simp only [List.isEmpty_nil, if_true] at ihe
    cases acc with
    | nil => simp [ihe]
    | cons a t2 => simp [ihe]

theorem wordsA_append_sep {p : Char → Bool} :
    ∀ (s t : List Char), (∀ c ∈ t, p c = true) → ∀ acc,
      wordsA p acc (s ++ t) = wordsA p acc s := by
  intro s
  induction s with
  | nil =>
    intro t h acc
    rw [List.nil_append, wordsA_all_sep h acc, wordsA_nil]
  | cons c cs ih =>
    intro t h acc
    rw [List.cons_append]
    cases hpc : p c with
    | true =>
      rw [wordsA_cons_pos hpc, wordsA_cons_pos hpc]
      cases acc with
      | nil => simp only [List.isEmpty_nil, if_true]; exact ih t h []
      | cons a t2 =>
        rw [if_neg (by simp), if_neg (by simp), ih t h []]
    | false =>
      rw [wordsA_cons_neg hpc, wordsA_cons_neg hpc, ih t h _]

theorem wordsA_strip {p : Char → Bool} (l : List Char) :
    wordsA p [] (((l.dropWhile p).reverse.dropWhile p).reverse) = wordsA p [] l := by
  have h0 : (l.dropWhile p).reverse.takeWhile p ++ (l.dropWhile p).reverse.dropWhile p =
      (l.dropWhile p).reverse :=
    List.takeWhile_append_dropWhile p _
  have hrev : l.dropWhile p =
      ((l.dropWhile p).reverse.dropWhile p).reverse ++
        ((l.dropWhile p).reverse.takeWhile p).reverse := by
    have h1 := congrArg List.reverse h0
    rw [List.reverse_append, List.reverse_reverse] at h1
    exact h1.symm
  have hall : ∀ c ∈ ((l.dropWhile p).reverse.takeWhile p).reverse, p c = true := by
    intro c hc
    rw [List.mem_reverse] at hc
    exact List.mem_takeWhile_imp hc
  calc wordsA p [] (((l.dropWhile p).reverse.dropWhile p).reverse)
      = wordsA p [] (((l.dropWhile p).reverse.dropWhile p).reverse ++
          ((l.dropWhile p).reverse.takeWhile p).reverse) :=
        (wordsA_append_sep _ _ hall []).symm
    _ = wordsA p [] (l.dropWhile p) := by rw [← hrev]
    _ = wordsA p [] l := wordsA_dropWhile l

theorem wordsA_congr {p q : Char → Bool} :
    ∀ {l : List Char}, (∀ c ∈ l, p c = q c) → ∀ acc, wordsA p acc l = wordsA q acc l := by
  intro l
  induction l with
  | nil => intro _ acc; rw [wordsA_nil, wordsA_nil]
  | cons c cs ih =>
    intro h acc
    have hc : p c = q c := h c (List.mem_cons_self _ _)
    have iht := ih (fun d hd => h d (List.mem_cons_of_mem _ hd))
    cases hqc : q c with
    | true =>
      rw [wordsA_cons_pos (hc.trans hqc), wordsA_cons_pos hqc, iht]
    | false =>
      rw [wordsA_cons_neg (hc.trans hqc), wordsA_cons_neg hqc, iht]

theorem part1ToCamelCase_eq_camelJoin (s : List Char) :
    part1ToCamelCase s = camelJoin (part1Words s) := by
  unfold part1ToCamelCase
  by_cases hall : s.all sepP1 = true
  · rw [if_pos hall]
    have hfil : s.filter allowedP1 = s := by
      rw [List.filter_eq_self]
      intro c hc
      have := List.all_eq_true.mp hall c hc
      unfold allowedP1
      rw [this]
      simp
    have hdrop : s.dropWhile sepP1 = [] := by
      rw [List.dropWhile_eq_nil_iff]
      intro c hc
      exact List.all_eq_true.mp hall c hc
    unfold part1Words
    rw [hfil, hdrop]
    rfl
  · rw [if_neg hall]
    show (if ((splitA sepP1 false []
          ((((s.filter allowedP1).dropWhile sepP1).reverse.dropWhile sepP1).reverse)).filter
            (fun w => !w.isEmpty)).isEmpty = true
        then ([] : List Char)
        else camelJoin ((splitA sepP1 false []
          ((((s.filter allowedP1).dropWhile sepP1).reverse.dropWhile sepP1).reverse)).filter
            (fun w => !w.isEmpty))) = camelJoin (part1Words s)
    rw [(splitA_filter _).1]
    unfold part1Words
    by_cases hws : wordsA sepP1 []
        ((((s.filter allowedP1).dropWhile sepP1).reverse.dropWhile sepP1).reverse) = []
    · rw [hws]
      simp [camelJoin]
    · rw [if_neg (fun h => hws (List.isEmpty_iff.mp h))]

theorem part1ToDotCase_eq_intercalate (s : List Char) :
    part1ToDotCase s = List.intercalate ['.'] ((part1Words s).map lowerWord) := by
  unfold part1ToDotCase
  by_cases hall : s.all sepP1 = true
  · rw [if_pos hall]
    have hfil : s.filter allowedP1 = s := by
      rw [List.filter_eq_self]
      intro c hc
      have := List.all_eq_true.mp hall c hc
      unfold allowedP1
      rw [this]
      simp
    have hdrop : s.dropWhile sepP1 = [] := by
      rw [List.dropWhile_eq_nil_iff]
      intro c hc
      exact List.all_eq_true.mp hall c hc
    unfold part1Words
    rw [hfil, hdrop]
    rfl
  · rw [if_neg hall]
    show (if ((splitA sepP1 false []
          ((((s.filter allowedP1).dropWhile sepP1).reverse.dropWhile sepP1).reverse)).filter
            (fun w => !w.isEmpty)).isEmpty = true
        then ([] : List Char)
        else List.intercalate ['.'] (((splitA sepP1 false []
          ((((s.filter allowedP1).dropWhile sepP1).reverse.dropWhile sepP1).reverse)).filter
            (fun w => !w.isEmpty)).map lowerWord)) =
      List.intercalate ['.'] ((part1Words s).map lowerWord)
    rw [(splitA_filter _).1]
    unfold part1Words
    by_cases hws : wordsA sepP1 []
        ((((s.filter allowedP1).dropWhile sepP1).reverse.dropWhile sepP1).reverse) = []
    · rw [hws]
      rfl
    · rw [if_neg (fun h => hws (List.isEmpty_iff.mp h))]

end Camel

namespace Camel

open StrUtil

theorem isAlnumA_ranges {c : Char} (h : isAlnumA c = true) :
    (48 ≤ c.toNat ∧ c.toNat ≤ 57) ∨ (65 ≤ c.toNat ∧ c.toNat ≤ 90) ∨
      (97 ≤ c.toNat ∧ c.toNat ≤ 122) := by
  unfold isAlnumA isUp isLo isDig at h
  simp only [Bool.or_eq_true, Bool.and_eq_true, decide_eq_true_eq] at h
  omega

theorem isAlnumA_not_sepP1 {c : Char} (h : isAlnumA c = true) : sepP1 c = false := by
  have hn := isAlnumA_ranges h
  have h95 : c ≠ '_' := by
    intro e; subst e; exact absurd hn (by decide)
  have h45 : c ≠ '-' := by
    intro e; subst e; exact absurd hn (by decide)
  have h46 : c ≠ '.' := by
    intro e; subst e; exact absurd hn (by decide)
  have e1 : (c.toNat == 32) = false := by
    simp only [beq_eq_false_iff_ne, ne_eq]
    omega
  have e2 : (decide (9 ≤ c.toNat) && decide (c.toNat ≤ 13)) = false := by
    simp only [Bool.and_eq_false_iff, decide_eq_false_iff_not, not_le]
    omega
  have e3 : (c == '_') = false := beq_eq_false_iff_ne.mpr h95
  have e4 : (c == '-') = false := beq_eq_false_iff_ne.mpr h45
  have e5 : (c == '.') = false := beq_eq_false_iff_ne.mpr h46
  unfold sepP1 isWsA
  rw [e1, e2, e3, e4, e5]
  rfl

theorem mem_strip {p : Char → Bool} {c : Char} {l : List Char}
    (h : c ∈ ((l.dropWhile p).reverse.dropWhile p).reverse) : c ∈ l := by
  rw [List.mem_reverse] at h
  have h2 := (List.dropWhile_sublist p).mem h
  rw [List.mem_reverse] at h2
  exact (List.dropWhile_sublist p).mem h2

theorem wordsA_sound {p : Char → Bool} :
    ∀ (l acc : List Char), (∀ c ∈ acc, p c = false) →
      ∀ w ∈ wordsA p acc l, w ≠ [] ∧ ∀ c ∈ w, p c = false ∧ (c ∈ acc ∨ c ∈ l) := by
  intro l
  induction l with
  | nil =>
    intro acc hacc w hw
    rw [wordsA_nil] at hw
    cases acc with
    | nil => simp at hw
    | cons a t =>
      rw [if_neg (by simp)] at hw
      rcases List.mem_singleton.mp hw with rfl
      refine ⟨by simp, ?_⟩
      intro c hc
      rw [List.mem_reverse] at hc
      exact ⟨hacc c hc, Or.inl hc⟩
  | cons d cs ih =>
    intro acc hacc w hw
    cases hpd : p d with
    | true =>
      rw [wordsA_cons_pos hpd] at hw
      cases acc with
      | nil =>
        rw [if_pos List.isEmpty_nil] at hw
        have := ih [] (by intro c hc; simp at hc) w hw
        refine ⟨this.1, ?_⟩
        intro c hc
        rcases this.2 c hc with ⟨h1, h2 | h2⟩
        · simp at h2
        · exact ⟨h1, Or.inr (List.mem_cons_of_mem _ h2)⟩
      | cons a t =>
        rw [if_neg (by simp)] at hw
        rcases List.mem_cons.mp hw with rfl | hw2
        · refine ⟨by simp, ?_⟩
          intro c hc
          rw [List.mem_reverse] at hc
          exact ⟨hacc c hc, Or.inl hc⟩
        · have := ih [] (by intro c hc; simp at hc) w hw2
          refine ⟨this.1, ?_⟩
          intro c hc
          rcases this.2 c hc with ⟨h1, h2 | h2⟩
          · simp at h2
          · exact ⟨h1, Or.inr (List.mem_cons_of_mem _ h2)⟩
    | false =>
      rw [wordsA_cons_neg hpd] at hw
      have hacc2 : ∀ c ∈ d :: acc, p c = false := by
        intro c hc
        rcases List.mem_cons.mp hc with rfl | hc2
        · exact hpd
        · exact hacc c hc2
      have := ih (d :: acc) hacc2 w hw
      refine ⟨this.1, ?_⟩
      intro c hc
      rcases this.2 c hc with ⟨h1, h2 | h2⟩
      · rcases List.mem_cons.mp h2 with rfl | h3
        · exact ⟨h1, Or.inr (List.mem_cons_self _ _)⟩
        · exact ⟨h1, Or.inl h3⟩
      · exact ⟨h1, Or.inr (List.mem_cons_of_mem _ h2)⟩

theorem part1Words_sound (s : List Char) :
    ∀ w ∈ part1Words s, w ≠ [] ∧ ∀ c ∈ w, isAlnumA c = true := by
  intro w hw
  unfold part1Words at hw
  have := wordsA_sound _ [] (by intro c hc; simp at hc) w hw
  refine ⟨this.1, ?_⟩
  intro c hc
  rcases this.2 c hc with ⟨hsep, h2 | h2⟩
  · simp at h2
  · have hmem := mem_strip h2
    have hallow : allowedP1 c = true := (List.mem_filter.mp hmem).2
    unfold allowedP1 at hallow
    rw [hsep] at hallow
    simpa using hallow

theorem wordsA_append_word {p : Char → Bool} :
    ∀ (w : List Char), (∀ c ∈ w, p c = false) → ∀ (acc r : List Char),
      wordsA p acc (w ++ r) = wordsA p (w.reverse ++ acc) r := by
  intro w
  induction w with
  | nil => intro _ acc r; simp
  | cons c w2 ih =>
    intro h acc r
    have hpc : p c = false := h c (List.mem_cons_self _ _)
    rw [List.cons_append, wordsA_cons_neg hpc,
      ih (fun d hd => h d (List.mem_cons_of_mem _ hd)) (c :: acc) r]
    congr 1
    rw [List.reverse_cons, List.append_assoc]
    rfl

theorem intercalate_nil (sep : List Char) :
    List.intercalate sep ([] : List (List Char)) = [] := by
  simp [List.intercalate]

theorem intercalate_single (sep w : List Char) : List.intercalate sep [w] = w := by
  simp [List.intercalate]

theorem intercalate_cons2 (sep : List Char) (w y : List Char) (rest : List (List Char)) :
    List.intercalate sep (w :: y :: rest) = w ++ sep ++ List.intercalate sep (y :: rest) := by
  simp [List.intercalate, List.intersperse]

end Camel

namespace Camel

open StrUtil

theorem wordsA_intercalate :
    ∀ {ws : List (List Char)},
      (∀ w ∈ ws, w ≠ [] ∧ ∀ c ∈ w, sepP1 c = false) →
      wordsA sepP1 [] (List.intercalate ['.'] ws) = ws := by
  intro ws
  induction ws with
  | nil => intro _; rw [intercalate_nil]; rfl
  | cons w rest ih =>
    intro h
    have hw := h w (List.mem_cons_self _ _)
    cases rest with
    | nil =>
      rw [intercalate_single]
      have : wordsA sepP1 [] (w ++ []) = wordsA sepP1 [] w := by rw [List.append_nil]
      rw [← this, wordsA_append_word w hw.2 [] []]
      rw [List.append_nil, wordsA_nil]
      rw [if_neg (by cases hne : w.reverse with
        | nil => exact absurd (by simpa using hne) hw.1
        | cons x xs => simp)]
      rw [List.reverse_reverse]
    | cons y rest2 =>
      rw [intercalate_cons2, List.append_assoc, wordsA_append_word w hw.2 [] _]
      rw [List.append_nil]
      have hdot : sepP1 '.' = true := by decide
      show wordsA sepP1 w.reverse ('.' :: List.intercalate ['.'] (y :: rest2)) = _
      rw [wordsA_cons_pos hdot]
      rw [if_neg (by cases hne : w.reverse with
        | nil => exact absurd (by simpa using hne) hw.1
        | cons x xs => simp)]
      rw [List.reverse_reverse]
      rw [ih (fun v hv => h v (List.mem_cons_of_mem _ hv))]

theorem mem_intercalate_dot {c : Char} :
    ∀ {ws : List (List Char)}, c ∈ List.intercalate ['.'] ws →
      c = '.' ∨ ∃ w ∈ ws, c ∈ w := by
  intro ws
  induction ws with
  | nil => intro h; rw [intercalate_nil] at h; simp at h
  | cons w rest ih =>
    intro h
    cases rest with
    | nil =>
      rw [intercalate_single] at h
      exact Or.inr ⟨w, List.mem_cons_self _ _, h⟩
    | cons y rest2 =>
      rw [intercalate_cons2] at h
      rcases List.mem_append.mp h with h1 | h1
      · rcases List.mem_append.mp h1 with h2 | h2
        · exact Or.inr ⟨w, List.mem_cons_self _ _, h2⟩
        · exact Or.inl (List.mem_singleton.mp h2)
      · rcases ih h1 with h2 | ⟨v, hv, hc⟩
        · exact Or.inl h2
        · exact Or.inr ⟨v, List.mem_cons_of_mem _ hv, hc⟩

theorem lowerWord_lowerWord (w : List Char) : lowerWord (lowerWord w) = lowerWord w := by
  unfold lowerWord
  rw [List.map_map]
  exact List.map_congr_left (fun c _ => lowerChar_lowerChar c)

theorem capLower_lowerWord (w : List Char) : capLower (lowerWord w) = capLower w := by
  unfold capLower
  rw [show (lowerWord w).map lowerChar = w.map lowerChar from lowerWord_lowerWord w]

theorem camelJoin_map_lowerWord (ws : List (List Char)) :
    camelJoin (ws.map lowerWord) = camelJoin ws := by
  cases ws with
  | nil => rfl
  | cons w rest =>
    show lowerWord (lowerWord w) ++ ((rest.map lowerWord).map capLower).flatten =
      lowerWord w ++ (rest.map capLower).flatten
    rw [lowerWord_lowerWord, List.map_map]
    have : rest.map (capLower ∘ lowerWord) = rest.map capLower :=
      List.map_congr_left (fun v _ => capLower_lowerWord v)
    rw [this]

end Camel

namespace Kebab

theorem headNot_of_all {p : Char → Bool} {l : List Char}
    (h : ∀ c ∈ l, p c = false) : headNot p l = true := by
  cases l with
  | nil => rfl
  | cons a t => simp [headNot, h a (List.mem_cons_self _ _)]

theorem lastNot_of_all {p : Char → Bool} :
    ∀ {l : List Char}, (∀ c ∈ l, p c = false) → lastNot p l = true := by
  intro l
  induction l with
  | nil => intro _; rfl
  | cons a t ih =>
    intro h
    cases t with
    | nil => simp [lastNot, h a (List.mem_cons_self _ _)]
    | cons b t2 =>
      rw [lastNot_cons (by simp)]
      exact ih (fun c hc => h c (List.mem_cons_of_mem _ hc))

theorem toKebabCase_eq_self_of_plain {s : List Char}
    (h : ∀ c ∈ s, StrUtil.isUp c = false ∧ sepWU c = false ∧ isHy c = false) :
    toKebabCase s = s := by
  unfold toKebabCase
  rw [insertHyphens_eq_self (fun c hc => (h c hc).1)]
  rw [map_lowerChar_eq_self (fun c hc => (h c hc).1)]
  rw [collapseRuns_eq_self (fun c hc => (h c hc).2.1) false]
  rw [stripHyphens_eq_self (headNot_of_all (fun c hc => (h c hc).2.2))
    (lastNot_of_all (fun c hc => (h c hc).2.2))]
  rw [collapseRuns_eq_self (fun c hc => (h c hc).2.2) false]

end Kebab

namespace Camel

open StrUtil

theorem narrow_not_dot {c : Char} (h : narrowFS c = true) : (c == '.') = false := by
  by_cases hc : c = '.'
  · subst hc
    exact absurd h (by decide)
  · exact beq_eq_false_iff_ne.mpr hc

theorem narrow_sepFS_eq_sepP1 {c : Char} (h : narrowFS c = true) : sepFS c = sepP1 c := by
  unfold sepFS sepP1
  rw [narrow_not_dot h]
  simp

theorem narrow_allowed {c : Char} (h : narrowFS c = true) : allowedP1 c = true := by
  unfold narrowFS at h
  simp only [Bool.or_eq_true, beq_iff_eq] at h
  rcases h with ((h | h) | h) | h
  · simp [allowedP1, h]
  · subst h; decide
  · subst h; decide
  · subst h; decide

theorem part1Words_intercalate {lws : List (List Char)}
    (hws : ∀ w ∈ lws, w ≠ [] ∧ ∀ c ∈ w, isAlnumA c = true) :
    part1Words (List.intercalate ['.'] lws) = lws := by
  have hsep : ∀ w ∈ lws, w ≠ [] ∧ ∀ c ∈ w, sepP1 c = false :=
    fun w hw => ⟨(hws w hw).1, fun c hc => isAlnumA_not_sepP1 ((hws w hw).2 c hc)⟩
  have hfil : (List.intercalate ['.'] lws).filter allowedP1 =
      List.intercalate ['.'] lws := by
    rw [List.filter_eq_self]
    intro c hc
    rcases mem_intercalate_dot hc with rfl | ⟨w, hw, hcw⟩
    · decide
    · have ha := (hws w hw).2 c hcw
      simp [allowedP1, ha]
  unfold part1Words
  rw [hfil, wordsA_strip]
  exact wordsA_intercalate hsep

theorem part1Words_dot (s : List Char) :
    part1Words (part1ToDotCase s) = (part1Words s).map lowerWord := by
  rw [part1ToDotCase_eq_intercalate]
  apply part1Words_intercalate
  intro w hw
  rcases List.mem_map.mp hw with ⟨v, hv, rfl⟩
  have hsv := part1Words_sound s v hv
  constructor
  · intro he
    exact hsv.1 (List.map_eq_nil_iff.mp he)
  · intro c hc
    rcases List.mem_map.mp hc with ⟨d, hd, rfl⟩
    rw [isAlnumA_lowerChar]
    exact hsv.2 d hd

end Camel

namespace Market

theorem filter_length_map_ite (p : User → Bool) (F : User → User) (uid : Nat) :
    ∀ (l : List User), (l.map User.id).Nodup →
      ∀ u0 ∈ l, u0.id = uid →
        (List.filter p (l.map (fun u => if u.id == uid then F u else u))).length +
          (if p u0 = true then 1 else 0) =
        (l.filter p).length + (if p (F u0) = true then 1 else 0) := by
  intro l
  induction l with
  | nil => intro _ u0 h0; simp at h0
  | cons u t ih =>
    intro hnodup u0 hu0mem hu0id
    rw [List.map_cons] at hnodup
    have hnd := List.nodup_cons.mp hnodup
    rcases List.mem_cons.mp hu0mem with rfl | hu0t
    · have hbeq : (u0.id == uid) = true := beq_iff_eq.mpr hu0id
      have hmap : t.map (fun u => if u.id == uid then F u else u) = t := by
        have hcg : t.map (fun u => if u.id == uid then F u else u) = t.map id := by
          apply List.map_congr_left
          intro v hv
          have hne : (v.id == uid) = false := by
            apply beq_eq_false_iff_ne.mpr
            intro e
            apply hnd.1
            rw [← hu0id] at e
            exact List.mem_map.mpr ⟨v, hv, e⟩
          rw [hne]
          simp
        rw [hcg, List.map_id]
      rw [List.map_cons, hmap, hbeq, if_pos rfl]
      rw [List.filter_cons, List.filter_cons]
      cases hpu : p u0 <;> cases hpF : p (F u0) <;>
        simp [hpu, hpF] <;> omega
    · have hu_ne : (u.id == uid) = false := by
        apply beq_eq_false_iff_ne.mpr
        intro e
        apply hnd.1
        rw [e, ← hu0id]
        exact List.mem_map.mpr ⟨u0, hu0t, rfl⟩
      rw [List.map_cons, hu_ne, if_neg Bool.false_ne_true]
      rw [List.filter_cons, List.filter_cons]
      have iht := ih hnd.2 u0 hu0t hu0id
      cases hpu : p u <;> cases hq : p u0 <;> cases hr : p (F u0) <;>
        simp [hpu, hq, hr] at iht ⊢ <;> omega

end Market

namespace Market

theorem countFavoriters_mk (users : List User) (items : List Item) (j : Nat) :
    countFavoriters ⟨users, items⟩ j =
      (users.filter (fun u => u.favorites.contains j)).length := rfl

theorem favorite_inv {st : St} {uid iid : Nat} (h : inv st) :
    inv (favorite st uid iid) := by
  unfold favorite
  by_cases h1 : st.users.any (fun u => u.id == uid && u.favorites.contains iid) = true
  · rw [if_pos h1]; exact h
  · rw [if_neg h1]
    by_cases h2 : st.users.any (fun u => u.id == uid) = true
    · rw [if_pos h2]
      have h1f : st.users.any (fun u => u.id == uid && u.favorites.contains iid) = false :=
        Bool.eq_false_iff.mpr h1
      obtain ⟨u0, hu0, hbeq⟩ := List.any_eq_true.mp h2
      have hu0id : u0.id = uid := eq_of_beq hbeq
      have hpu0 : u0.favorites.contains iid = false := by
        have := List.any_eq_false.mp h1f u0 hu0
        rw [hbeq] at this
        simpa using Bool.eq_false_iff.mpr this
      have hidsame : (st.users.map (fun u =>
          if u.id == uid then { u with favorites := iid :: u.favorites } else u)).map User.id =
          st.users.map User.id := by
        rw [List.map_map]
        apply List.map_congr_left
        intro u _
        show (if u.id == uid then { u with favorites := iid :: u.favorites } else u).id = u.id
        cases hc : u.id == uid <;> simp [hc]
      refine ⟨?_, ?_, ?_⟩
      · show ((st.users.map _).map User.id).Nodup
        rw [hidsame]
        exact h.1
      · intro v hv
        rcases List.mem_map.mp hv with ⟨u, hu, rfl⟩
        cases hc : u.id == uid with
        | false =>
          simp only [hc, Bool.false_eq_true, if_false]
          exact h.2.1 u hu
        | true =>
          simp only [hc, if_true]
          show (iid :: u.favorites).Nodup
          rw [List.nodup_cons]
          refine ⟨?_, h.2.1 u hu⟩
          have := List.any_eq_false.mp h1f u hu
          rw [hc] at this
          have hcf : u.favorites.contains iid = false := by
            simpa using Bool.eq_false_iff.mpr this
          simpa using hcf
      · intro it' hit'
        rcases List.mem_map.mp hit' with ⟨it, hit, rfl⟩
        have hbase := h.2.2 it hit
        cases hc : it.id == iid with
        | true =>
          have hii : it.id = iid := eq_of_beq hc
          simp only [hc, if_true]
          show it.favoritesCount + 1 = countFavoriters _ it.id
          rw [countFavoriters_mk]
          have master := filter_length_map_ite
            (fun u => u.favorites.contains iid)
            (fun u => { u with favorites := iid :: u.favorites }) uid
            st.users h.1 u0 hu0 hu0id
          have hpF : ((u0 : User).favorites.contains iid || true) = true := by simp
          simp only [hpu0] at master
          have hFc : (({ u0 with favorites := iid :: u0.favorites } : User).favorites.contains iid)
              = true := by
            show ((iid :: u0.favorites).contains iid) = true
            rw [List.contains_cons]
            simp
          simp only [hFc] at master
          simp only [if_true, Bool.false_eq_true, if_false] at master
          rw [hii] at hbase ⊢
          rw [hbase, countFavoriters_mk]
          omega
        | false =>
          have hii : it.id ≠ iid := by
            intro e
            rw [beq_iff_eq.mpr e] at hc
            cases hc
          simp only [hc, Bool.false_eq_true, if_false]
          rw [hbase, countFavoriters_mk, countFavoriters_mk]
          have master := filter_length_map_ite
            (fun u => u.favorites.contains it.id)
            (fun u => { u with favorites := iid :: u.favorites }) uid
            st.users h.1 u0 hu0 hu0id
          dsimp only at master
          have hsame : (({ u0 with favorites := iid :: u0.favorites } : User).favorites.contains it.id)
              = u0.favorites.contains it.id := by
            show ((iid :: u0.favorites).contains it.id) = _
            rw [List.contains_cons]
            rw [beq_eq_false_iff_ne.mpr hii]
            simp
          rw [hsame] at master
          omega
    · rw [if_neg h2]; exact h

end Market

namespace Market

theorem unfavorite_inv {st : St} {uid iid : Nat} (h : inv st) :
    inv (unfavorite st uid iid) := by
  unfold unfavorite
  by_cases h1 : st.users.any (fun u => u.id == uid && u.favorites.contains iid) = true
  · rw [if_pos h1]
    obtain ⟨u0, hu0, hp0⟩ := List.any_eq_true.mp h1
    simp only [Bool.and_eq_true] at hp0
    obtain ⟨hbeq, hcont⟩ := hp0
    have hu0id : u0.id = uid := eq_of_beq hbeq
    have hidsame : (st.users.map (fun u =>
        if u.id == uid then { u with favorites := u.favorites.erase iid } else u)).map User.id =
        st.users.map User.id := by
      rw [List.map_map]
      apply List.map_congr_left
      intro u _
      show (if u.id == uid then { u with favorites := u.favorites.erase iid } else u).id = u.id
      cases hc : u.id == uid <;> simp [hc]
    refine ⟨?_, ?_, ?_⟩
    · show ((st.users.map _).map User.id).Nodup
      rw [hidsame]
      exact h.1
    · intro v hv
      rcases List.mem_map.mp hv with ⟨u, hu, rfl⟩
      cases hc : u.id == uid with
      | false =>
        simp only [hc, Bool.false_eq_true, if_false]
        exact h.2.1 u hu
      | true =>
        simp only [hc, if_true]
        show (u.favorites.erase iid).Nodup
        exact List.Nodup.erase _ (h.2.1 u hu)
    · intro it' hit'
      rcases List.mem_map.mp hit' with ⟨it, hit, rfl⟩
      have hbase := h.2.2 it hit
      cases hc : it.id == iid with
      | true =>
        have hii : it.id = iid := eq_of_beq hc
        simp only [hc, if_true]
        show it.favoritesCount - 1 = countFavoriters _ it.id
        rw [countFavoriters_mk]
        have master := filter_length_map_ite
          (fun u => u.favorites.contains iid)
          (fun u => { u with favorites := u.favorites.erase iid }) uid
          st.users h.1 u0 hu0 hu0id
        dsimp only at master
        have hnotin : iid ∉ u0.favorites.erase iid := by
          intro hm
          exact (((h.2.1 u0 hu0).mem_erase_iff).mp hm).1 rfl
        have hFc : ((u0.favorites.erase iid).contains iid) = false := by
          simpa using hnotin
        rw [hFc, hcont] at master
        simp only [if_true, Bool.false_eq_true, if_false] at master
        rw [hii] at hbase ⊢
        rw [hbase, countFavoriters_mk]
        omega
      | false =>
        have hii : it.id ≠ iid := by
          intro e
          rw [beq_iff_eq.mpr e] at hc
          cases hc
        simp only [hc, Bool.false_eq_true, if_false]
        rw [hbase, countFavoriters_mk, countFavoriters_mk]
        have master := filter_length_map_ite
          (fun u => u.favorites.contains it.id)
          (fun u => { u with favorites := u.favorites.erase iid }) uid
          st.users h.1 u0 hu0 hu0id
        dsimp only at master
        have hsame : ((u0.favorites.erase iid).contains it.id)
            = u0.favorites.contains it.id := by
          simp [List.mem_erase_of_ne hii]
        rw [hsame] at master
        omega
  · rw [if_neg h1]; exact h

theorem applyOp_inv {st : St} {op : FavOp} (h : inv st) : inv (applyOp st op) := by
  cases op with
  | fav u i => exact favorite_inv h
  | unfav u i => exact unfavorite_inv h

theorem runOps_inv : ∀ (ops : List FavOp) (st : St), inv st → inv (runOps st ops) := by
  intro ops
  induction ops with
  | nil => intro st h; exact h
  | cons op rest ih =>
    intro st h
    show inv (runOps (applyOp st op) rest)
    exact ih _ (applyOp_inv h)

theorem favorite_noop_of_fav {st : St} {uid iid : Nat}
    (h : st.users.any (fun u => u.id == uid && u.favorites.contains iid) = true) :
    favorite st uid iid = st := by
  unfold favorite
  rw [if_pos h]

theorem favorite_idem (st : St) (uid iid : Nat) :
    favorite (favorite st uid iid) uid iid = favorite st uid iid := by
  by_cases h1 : st.users.any (fun u => u.id == uid && u.favorites.contains iid) = true
  · have e := favorite_noop_of_fav h1
    rw [e]
    exact e
  · by_cases h2 : st.users.any (fun u => u.id == uid) = true
    · have e : favorite st uid iid =
          ⟨st.users.map (fun u =>
            if u.id == uid then { u with favorites := iid :: u.favorites } else u),
           st.items.map (fun it =>
            if it.id == iid then { it with favoritesCount := it.favoritesCount + 1 } else it)⟩ := by
        unfold favorite
        rw [if_neg h1, if_pos h2]
      have hcond : (favorite st uid iid).users.any
          (fun u => u.id == uid && u.favorites.contains iid) = true := by
        rw [e]
        show (st.users.map _).any _ = true
        obtain ⟨u0, hu0, hbeq⟩ := List.any_eq_true.mp h2
        apply List.any_eq_true.mpr
        refine ⟨_, List.mem_map.mpr ⟨u0, hu0, rfl⟩, ?_⟩
        simp only [hbeq, if_true]
        simp [List.contains_cons]
      exact favorite_noop_of_fav hcond
    · have e : favorite st uid iid = st := by
        unfold favorite
        rw [if_neg h1, if_neg h2]
      rw [e]
      exact e

end Market

/-- Claim C1, counterexample: the claim says `deleteComment(requestorId, commentId)`
fails with Forbidden whenever the requestor is not the comment's author.  With a
store holding one comment authored by user 10, requestor 99 (not the author)
gets 204 and the comment is removed; no Forbidden is produced. -/
theorem C1_counterexample :
    (99 : Nat) ≠ 10 ∧
    CommentsApi.deleteComment [⟨1, 10⟩] 99 1 = (CommentsApi.RouteResponse.status204, []) ∧
    (CommentsApi.deleteComment [⟨1, 10⟩] 99 1).1.isForbidden = false := by
  decide

/-- Claim C1, amended: the delete route performs no ownership check.  For every
store, requestor, and comment id: the outcome is independent of the requestor;
the response is never Forbidden; an existing comment is deleted with 204 (and is
gone from the resulting store); a missing id yields 404 with the store
unchanged. -/
theorem C1_amended_no_ownership_check (store : List CommentsApi.Comment)
    (req req2 commentId : Nat) :
    CommentsApi.deleteComment store req commentId =
      CommentsApi.deleteComment store req2 commentId ∧
    (CommentsApi.deleteComment store req commentId).1.isForbidden = false ∧
    (∀ c ∈ store, c.id = commentId →
      (CommentsApi.deleteComment store req commentId).1 =
        CommentsApi.RouteResponse.status204 ∧
      c ∉ (CommentsApi.deleteComment store req commentId).2) ∧
    ((∀ c ∈ store, c.id ≠ commentId) →
      CommentsApi.deleteComment store req commentId =
        (CommentsApi.RouteResponse.errJson 404 "Comment not found", store)) := by
  have hd : ∀ r : Nat, CommentsApi.deleteComment store r commentId =
      (match store.find? (fun c => c.id == commentId) with
       | none => (CommentsApi.RouteResponse.errJson 404 "Comment not found", store)
       | some _ => (CommentsApi.RouteResponse.status204,
           store.filter (fun c2 => !(c2.id == commentId)))) := by
    intro r
    unfold CommentsApi.deleteComment CommentsApi.dbFindByIdAndDelete
    cases store.find? (fun c => c.id == commentId) <;> rfl
  refine ⟨(hd req).trans (hd req2).symm, ?_, ?_, ?_⟩
  · rw [hd req]
    cases store.find? (fun c => c.id == commentId) <;> rfl
  · intro c hc hcid
    have hsome : (store.find? (fun c => c.id == commentId)).isSome = true :=
      List.find?_isSome.mpr ⟨c, hc, by rw [hcid]; exact beq_self_eq_true _⟩
    obtain ⟨d, hd2⟩ := Option.isSome_iff_exists.mp hsome
    rw [hd req, hd2]
    refine ⟨rfl, ?_⟩
    intro hm
    have := (List.mem_filter.mp hm).2
    rw [hcid] at this
    simp at this
  · intro hnone
    have hf : store.find? (fun c => c.id == commentId) = none := by
      rw [List.find?_eq_none]
      intro x hx
      rw [beq_eq_false_iff_ne.mpr (hnone x hx)]
      intro hfalse
      cases hfalse
    rw [hd req, hf]

/-- Claim C1, witness for the amended theorem at a concrete input: deleting the
only comment (author 10) as requestor 99 yields 204, removes it, and is not
Forbidden. -/
theorem C1_amended_witness :
    (CommentsApi.deleteComment [⟨1, 10⟩] 99 1).1 = CommentsApi.RouteResponse.status204 ∧
    (⟨1, 10⟩ : CommentsApi.Comment) ∉ (CommentsApi.deleteComment [⟨1, 10⟩] 99 1).2 ∧
    (CommentsApi.deleteComment [⟨1, 10⟩] 99 1).1.isForbidden = false := by
  have h := C1_amended_no_ownership_check [⟨1, 10⟩] 99 42 1
  have h3 := h.2.2.1 ⟨1, 10⟩ (List.mem_singleton.mpr rfl) rfl
  exact ⟨h3.1, h3.2, h.2.1⟩

/-- Claim C7, counterexample: the claim says a failing persistence call surfaces
the original error unmodified.  When the persistence layer fails with "boom",
both handlers respond 500 with a fixed message that is not the original
error. -/
theorem C7_counterexample :
    CommentsApi.getCommentsRoute (Except.error "boom") =
      CommentsApi.RouteResponse.errJson 500 "Failed to fetch comments" ∧
    "Failed to fetch comments" ≠ "boom" ∧
    CommentsApi.deleteCommentRoute (Except.error "boom") =
      CommentsApi.RouteResponse.errJson 500 "Failed to delete comment" ∧
    "Failed to delete comment" ≠ "boom" := by
  refine ⟨rfl, by decide, rfl, by decide⟩

/-- Claim C7, amended: when the underlying persistence call of the
comment-listing or comment-deletion route fails, the handlers swallow the
original error and respond 500 with a fixed generic message, independent of the
error. -/
theorem C7_amended_errors_swallowed (e : String) :
    CommentsApi.getCommentsRoute (Except.error e) =
      CommentsApi.RouteResponse.errJson 500 "Failed to fetch comments" ∧
    CommentsApi.deleteCommentRoute (Except.error e) =
      CommentsApi.RouteResponse.errJson 500 "Failed to delete comment" :=
  ⟨rfl, rfl⟩

/-- Claim C3, counterexample: the claim says slug normalization collapses every
run of non-alphanumeric characters into a hyphen, leaving only lowercase
alphanumeric runs separated by single hyphens.  But `toKebabCase` only converts
whitespace and underscores: on "a.b" the dot survives, so the output is not
made of alphanumeric runs and hyphens. -/
theorem C3_counterexample :
    Kebab.toKebabCase ['a', '.', 'b'] = ['a', '.', 'b'] ∧
    (['a', '.', 'b'].all
      (fun c => StrUtil.isLo c || StrUtil.isDig c || c == '-')) = false := by
  decide

/-- Claim C3, amended: `toKebabCase` collapses runs of whitespace and
underscores (and of hyphens) to single hyphens and strips leading and trailing
hyphens: its output contains no whitespace/underscore and no ASCII uppercase,
has no two adjacent hyphens, and neither starts nor ends with a hyphen.  Other
punctuation is preserved, so the output need not be alphanumeric runs only. -/
theorem C3_amended_kebab_structure (s : List Char) :
    (Kebab.toKebabCase s).all
      (fun c => !Kebab.sepWU c && !StrUtil.isUp c) = true ∧
    Kebab.noAdjacent Kebab.isHy (Kebab.toKebabCase s) = true ∧
    Kebab.headNot Kebab.isHy (Kebab.toKebabCase s) = true ∧
    Kebab.lastNot Kebab.isHy (Kebab.toKebabCase s) = true := by
  refine ⟨?_, Kebab.toKebabCase_noAdjacent s, Kebab.toKebabCase_headNot s,
    Kebab.toKebabCase_lastNot s⟩
  rw [List.all_eq_true]
  intro c hc
  simp [Kebab.toKebabCase_not_sep c hc, Kebab.toKebabCase_not_up c hc]

/-- Claim C4, counterexample: the claim says no boundary is inserted inside a
contiguous alphanumeric run, such as at a camelCase transition.  But
`toKebabCase` does insert a hyphen at each lowercase-to-uppercase transition:
"aB", a purely alphanumeric run, normalizes to "a-b". -/
theorem C4_counterexample :
    Kebab.toKebabCase ['a', 'B'] = ['a', '-', 'b'] ∧
    (['a', 'B'].all StrUtil.isAlnumA) = true ∧
    '-' ∈ Kebab.toKebabCase ['a', 'B'] := by
  decide

/-- Claim C4, amended: `toKebabCase` lowercases the title, but it does insert a
boundary at each lowercase-to-uppercase transition.  Apart from those, no
boundary is invented: a title without uppercase letters and without
whitespace/underscore/hyphen characters is returned unchanged and
hyphen-free. -/
theorem C4_amended_no_invented_boundaries (s : List Char)
    (h : s.all (fun c => !StrUtil.isUp c && !Kebab.sepWU c && !Kebab.isHy c) = true) :
    Kebab.toKebabCase s = s ∧ '-' ∉ Kebab.toKebabCase s := by
  have hplain : ∀ c ∈ s, StrUtil.isUp c = false ∧ Kebab.sepWU c = false ∧
      Kebab.isHy c = false := by
    intro c hc
    have := List.all_eq_true.mp h c hc
    simp only [Bool.and_eq_true, Bool.not_eq_true'] at this
    exact ⟨this.1.1, this.1.2, this.2⟩
  have he := Kebab.toKebabCase_eq_self_of_plain hplain
  refine ⟨he, ?_⟩
  rw [he]
  intro hm
  have := (hplain '-' hm).2.2
  simp [Kebab.isHy] at this

/-- Claim C4, witness for the amended theorem: "lamp" (no uppercase, no
separators) normalizes to itself with no hyphen. -/
theorem C4_amended_witness :
    Kebab.toKebabCase ['l', 'a', 'm', 'p'] = ['l', 'a', 'm', 'p'] ∧
    '-' ∉ Kebab.toKebabCase ['l', 'a', 'm', 'p'] :=
  C4_amended_no_invented_boundaries ['l', 'a', 'm', 'p'] (by decide)

/-- Claim C5: for every title, the generated slug is never the empty string;
when normalization yields the empty string the (non-empty) random token is
substituted.  The slug-generation wrapper is modelled from the spec, with the
random token as a parameter. -/
theorem C5_slug_never_empty (tok title : List Char) (h : tok ≠ []) :
    Kebab.slugify tok title ≠ [] ∧
    (Kebab.toKebabCase title = [] → Kebab.slugify tok title = tok) := by
  unfold Kebab.slugify
  by_cases he : Kebab.toKebabCase title = []
  · rw [if_pos he]
    exact ⟨h, fun _ => rfl⟩
  · rw [if_neg he]
    exact ⟨he, fun hx => absurd hx he⟩

/-- Claim C5, witness: a whitespace-only title normalizes to the empty string,
and the random token "x7" is substituted, giving a non-empty slug. -/
theorem C5_slug_never_empty_witness :
    Kebab.slugify ['x', '7'] [' ', ' '] ≠ [] ∧
    (Kebab.toKebabCase [' ', ' '] = [] → Kebab.slugify ['x', '7'] [' ', ' '] = ['x', '7']) :=
  C5_slug_never_empty ['x', '7'] [' ', ' '] (by decide)

/-- Claim C6: normalizing "Vintage Lamp" yields exactly "vintage-lamp"; with no
colliding slug taken the created slug is "vintage-lamp", and when
"vintage-lamp" is already taken the created slug is "vintage-lamp-" followed by
the disambiguating suffix.  Collision handling is modelled from the spec. -/
theorem C6_vintage_lamp (suffix : List Char) :
    Kebab.toKebabCase ['V','i','n','t','a','g','e',' ','L','a','m','p'] =
      ['v','i','n','t','a','g','e','-','l','a','m','p'] ∧
    Kebab.createItemSlug [] ['r','n','d'] suffix
        ['V','i','n','t','a','g','e',' ','L','a','m','p'] =
      ['v','i','n','t','a','g','e','-','l','a','m','p'] ∧
    Kebab.createItemSlug [['v','i','n','t','a','g','e','-','l','a','m','p']]
        ['r','n','d'] suffix ['V','i','n','t','a','g','e',' ','L','a','m','p'] =
      ['v','i','n','t','a','g','e','-','l','a','m','p'] ++ '-' :: suffix := by
  have hs : Kebab.slugify ['r','n','d'] ['V','i','n','t','a','g','e',' ','L','a','m','p'] =
      ['v','i','n','t','a','g','e','-','l','a','m','p'] := by decide
  refine ⟨by decide, ?_, ?_⟩
  · show (if Kebab.slugify ['r','n','d'] ['V','i','n','t','a','g','e',' ','L','a','m','p'] ∈
          ([] : List (List Char))
        then Kebab.slugify ['r','n','d'] ['V','i','n','t','a','g','e',' ','L','a','m','p'] ++
          '-' :: suffix
        else Kebab.slugify ['r','n','d'] ['V','i','n','t','a','g','e',' ','L','a','m','p']) =
      ['v','i','n','t','a','g','e','-','l','a','m','p']
    rw [hs]
    simp
  · show (if Kebab.slugify ['r','n','d'] ['V','i','n','t','a','g','e',' ','L','a','m','p'] ∈
          [['v','i','n','t','a','g','e','-','l','a','m','p']]
        then Kebab.slugify ['r','n','d'] ['V','i','n','t','a','g','e',' ','L','a','m','p'] ++
          '-' :: suffix
        else Kebab.slugify ['r','n','d'] ['V','i','n','t','a','g','e',' ','L','a','m','p']) =
      ['v','i','n','t','a','g','e','-','l','a','m','p'] ++ '-' :: suffix
    rw [hs, if_pos (List.mem_singleton.mpr rfl)]

/-- Claim C8: the kebab normalizer is idempotent: applying `toKebabCase` to its
own output returns the output unchanged, for every string. -/
theorem C8_toKebabCase_idempotent (s : List Char) :
    Kebab.toKebabCase (Kebab.toKebabCase s) = Kebab.toKebabCase s :=
  Kebab.toKebabCase_idem s

/-- Claim C9, counterexample: the claim says the two `toCamelCase`
implementations agree on every string.  On "_x" the few-shot version keeps the
leading empty split token, so the sole word is capitalized ("X"), while the
part_001 version strips leading separators first ("x"). -/
theorem C9_counterexample :
    Camel.fewShotToCamelCase ['_', 'x'] = ['X'] ∧
    Camel.part1ToCamelCase ['_', 'x'] = ['x'] ∧
    Camel.fewShotToCamelCase ['_', 'x'] ≠ Camel.part1ToCamelCase ['_', 'x'] := by
  decide

/-- Claim C9, amended: the two `toCamelCase` implementations agree on every
string made only of ASCII alphanumerics, spaces, underscores and hyphens that
does not start with a separator (ruling out dots, characters the part_001
cleaning removes, and leading separators, where they differ). -/
theorem C9_amended_equiv_on_common_domain (s : List Char)
    (hall : s.all Camel.narrowFS = true)
    (hhead : Kebab.headNot Camel.sepFS s = true) :
    Camel.fewShotToCamelCase s = Camel.part1ToCamelCase s := by
  rw [Camel.fewShot_eq_camelJoin_wordsA hhead, Camel.part1ToCamelCase_eq_camelJoin]
  have hn : ∀ c ∈ s, Camel.narrowFS c = true := List.all_eq_true.mp hall
  congr 1
  rw [Camel.wordsA_congr (fun c hc => Camel.narrow_sepFS_eq_sepP1 (hn c hc)) []]
  unfold Camel.part1Words
  rw [List.filter_eq_self.mpr (fun c hc => Camel.narrow_allowed (hn c hc))]
  rw [Camel.wordsA_strip]

/-- Claim C9, witness for the amended theorem: on "my item" both
implementations produce "myItem". -/
theorem C9_amended_witness :
    Camel.fewShotToCamelCase ['m','y',' ','i','t','e','m'] =
      Camel.part1ToCamelCase ['m','y',' ','i','t','e','m'] :=
  C9_amended_equiv_on_common_domain ['m','y',' ','i','t','e','m'] (by decide) (by decide)

/-- Claim C10: converting to dot.case first and then to camelCase equals
converting directly, for the part_001 implementations, on every string. -/
theorem C10_dot_then_camel (s : List Char) :
    Camel.part1ToCamelCase (Camel.part1ToDotCase s) = Camel.part1ToCamelCase s := by
  rw [Camel.part1ToCamelCase_eq_camelJoin, Camel.part1ToCamelCase_eq_camelJoin s]
  rw [Camel.part1Words_dot]
  exact Camel.camelJoin_map_lowerWord _

/-- Claim C2: from any state satisfying the data-model invariant, after any
sequence of favorite/unfavorite operations every Item's `favoritesCount` equals
the number of distinct Users whose `favorites` set contains the Item's id, and
a repeated favorite by the same user is a no-op.  The favorite operations are
modelled from the spec (they are not part of the source under `src/`). -/
theorem C2_favoritesCount_invariant (st : Market.St) (ops : List Market.FavOp)
    (uid iid : Nat) (h : Market.inv st) :
    (∀ it ∈ (Market.runOps st ops).items,
      it.favoritesCount = Market.countFavoriters (Market.runOps st ops) it.id) ∧
    Market.favorite (Market.favorite st uid iid) uid iid =
      Market.favorite st uid iid :=
  ⟨(Market.runOps_inv ops st h).2.2, Market.favorite_idem st uid iid⟩

/-- Claim C2, witness: starting from one user (id 1, no favorites) and one item
(id 7, count 0), running favorite, favorite again, then unfavorite keeps the
count equal to the number of favoriting users, and the repeated favorite is a
no-op. -/
theorem C2_favoritesCount_witness :
    (∀ it ∈ (Market.runOps ⟨[⟨1, []⟩], [⟨7, 0⟩]⟩
        [Market.FavOp.fav 1 7, Market.FavOp.fav 1 7, Market.FavOp.unfav 1 7]).items,
      it.favoritesCount = Market.countFavoriters
        (Market.runOps ⟨[⟨1, []⟩], [⟨7, 0⟩]⟩
          [Market.FavOp.fav 1 7, Market.FavOp.fav 1 7, Market.FavOp.unfav 1 7]) it.id) ∧
    Market.favorite (Market.favorite ⟨[⟨1, []⟩], [⟨7, 0⟩]⟩ 1 7) 1 7 =
      Market.favorite ⟨[⟨1, []⟩], [⟨7, 0⟩]⟩ 1 7 :=
  C2_favoritesCount_invariant ⟨[⟨1, []⟩], [⟨7, 0⟩]⟩
    [Market.FavOp.fav 1 7, Market.FavOp.fav 1 7, Market.FavOp.unfav 1 7] 1 7 (by decide)
